import Mathlib

/-!
Verification of the wordler Wordle solver (src/main.cpp) against its
natural-language specification.

Words (`word_t`, a `std::array<char, 5>`) are modelled as lists of
characters; the fixed length 5 and the lowercase-letter invariant of the
source function `checkWord` become explicit hypotheses (`validWord`).  The
matching engine (`Hint::match`), the feedback derivation
(`Hint::fromGuess`), the pool filter (`filterTargets`), the guess
selector (`getNextGuess`) and the solver loop (`solveWord`) are embedded
as executable functions that follow the C++ control flow statement by
statement; the per-position `matched` flags of `Hint::match` are carried
in a list of `Ent` records, one per word position.
-/

namespace Wordler

/-- A word, as in `word_t`: a sequence of characters. -/
abbrev Wd := List Char

/-- Words have 5 letters (`wordLen` in the source). -/
def wordLen : Nat := 5

/-- The sentinel non-word `{ '.', '.', '.', '.', '.' }` (`nonWord()` in the source). -/
def nonWord : Wd := ['.', '.', '.', '.', '.']

/-- The invariant checked by `checkWord`: 5 characters, all lowercase ASCII letters. -/
def validWord (w : Wd) : Prop := w.length = wordLen ∧ ∀ c ∈ w, 'a' ≤ c ∧ c ≤ 'z'

instance (w : Wd) : Decidable (validWord w) := by
  unfold validWord; infer_instance

/-- Number of guesses allowed (`maxGuesses` in the source). -/
def maxGuesses : Nat := 6

/-- One position of the state of `Hint::match`: the word (candidate)
character, the guess character, the hint character, and the
"already matched" flag from the `matched` array. -/
structure Ent where
  w : Char
  g : Char
  h : Char
  m : Bool
deriving DecidableEq, Repr

/-- Mark an entry as matched (`fMatched = true`). -/
def mark (e : Ent) : Ent := { e with m := true }

/-- The initial per-position state of `Hint::match`: the zip of word,
guess and hint, with every `matched` flag false. -/
def mkEnts (word guess hint : Wd) : List Ent :=
  (word.zip (guess.zip hint)).map (fun p => ⟨p.1, p.2.1, p.2.2, false⟩)

/-- The green pass of `Hint::match`: for every position whose hint is
`'g'`, the word character must equal the guess character; on success the
position is marked, on mismatch the whole match fails. -/
def greenPass : List Ent → Option (List Ent)
  | [] => some []
  | e :: es =>
    if e.h = 'g' then
      if e.w = e.g then (greenPass es).map (fun es' => mark e :: es')
      else none
    else (greenPass es).map (fun es' => e :: es')

/-- The per-position test of the yellow search of `Hint::match`:
`chWord == chYellow && !(chHint == 'y' && chYellow == chGuess) && !fMatched`. -/
def yOk (c : Char) (e : Ent) : Bool :=
  e.w = c && !(e.h = 'y' && e.g = c) && !e.m

/-- The inner loop of the yellow pass: scan the word positions
left-to-right for the first one passing `yOk` and mark it; `none` when
no position qualifies. -/
def yfind (c : Char) : List Ent → Option (List Ent)
  | [] => none
  | e :: es =>
    if yOk c e then some (mark e :: es)
    else (yfind c es).map (fun es' => e :: es')

/-- The outer loop of the yellow pass of `Hint::match`: for every
guess/hint pair whose hint is `'y'`, search for the guessed letter;
failure of any search fails the whole match. -/
def yellowPass : List (Char × Char) → List Ent → Option (List Ent)
  | [], st => some st
  | p :: rest, st =>
    if p.2 = 'y' then
      match yfind p.1 st with
      | none => none
      | some st' => yellowPass rest st'
    else yellowPass rest st

/-- The inner check of the grey pass: the guessed letter must not occur
at any still-unmatched word position. -/
def greyOk (c : Char) (st : List Ent) : Bool :=
  st.all (fun e => !(e.w = c && !e.m))

/-- The grey pass of `Hint::match`: every guess/hint pair whose hint is
`'.'` must pass `greyOk`. -/
def greyPass (ghs : List (Char × Char)) (st : List Ent) : Bool :=
  ghs.all (fun p => if p.2 = '.' then greyOk p.1 st else true)

/-- A guess-hint pair, as in class `Hint`. -/
structure Hint where
  guess : Wd
  hint : Wd
deriving DecidableEq, Repr

/-- `Hint::match`: the three ordered passes over the candidate word. -/
def Hint.matchWord (ht : Hint) (word : Wd) : Bool :=
  match greenPass (mkEnts word ht.guess ht.hint) with
  | none => false
  | some st1 =>
    match yellowPass (ht.guess.zip ht.hint) st1 with
    | none => false
    | some st2 => greyPass (ht.guess.zip ht.hint) st2

/-- The first, green pass of `Hint::fromGuess`: positions where guess
and target agree get hint `'g'` and both letters are consumed
(overwritten with `'.'`).  Returns the hint word and the consumed copies
of guess and target. -/
def dGreen : List Char → List Char → List Char × List Char × List Char
  | g :: gs, t :: ts =>
    let r := dGreen gs ts
    if g = t then ('g' :: r.1, '.' :: r.2.1, '.' :: r.2.2)
    else ('.' :: r.1, g :: r.2.1, t :: r.2.2)
  | _, _ => ([], [], [])

/-- Consume the first occurrence of `c` in the (partially consumed)
target: the inner scan of the yellow pass of `Hint::fromGuess`. -/
def consume (c : Char) : List Char → Option (List Char)
  | [] => none
  | t :: ts => if c = t then some ('.' :: ts) else (consume c ts).map (fun ts' => t :: ts')

/-- The second, yellow pass of `Hint::fromGuess`: every still-unconsumed
guess letter scans the remaining target letters; on success the hint
becomes `'y'` and the target letter is consumed, otherwise the hint from
the green pass (`'.'`) is kept. -/
def dYellow : List Char → List Char → List Char → List Char × List Char
  | g :: gs, h :: hs, ts =>
    if g = '.' then
      let r := dYellow gs hs ts
      (h :: r.1, r.2)
    else
      match consume g ts with
      | some ts' => let r := dYellow gs hs ts'; ('y' :: r.1, r.2)
      | none => let r := dYellow gs hs ts; (h :: r.1, r.2)
  | _, _, ts => ([], ts)

/-- `Hint::fromGuess`: derive the hint a guess receives against a known
target (green pass then yellow pass, remaining positions grey). -/
def Hint.fromGuess (target guess : Wd) : Hint :=
  let r1 := dGreen guess target
  let r2 := dYellow r1.2.1 r1.1 r1.2.2
  ⟨guess, r2.1⟩

/-- `filterTargets`: keep the pool words matching every hint (a stable
`std::views::filter` with `std::ranges::all_of`). -/
def filterTargets (hints : List Hint) (pool : List Wd) : List Wd :=
  pool.filter (fun w => hints.all (fun ht => ht.matchWord w))

/-- The pool update performed by `solveWord` after an unsuccessful
guess: filter the targets by the feedback the guess received. -/
def nextTargets (target guess : Wd) (targets : List Wd) : List Wd :=
  filterTargets [Hint.fromGuess target guess] targets

/-- The score `getNextGuess` computes for one guess: the sum, over all
hypothetical targets, of how many pool words would still match the
feedback that target would produce.  (`score_t` is a 64-bit unsigned
integer in the source; sums are modelled exactly, which agrees with the
source whenever they stay below `2^64`.) -/
def score (targets : List Wd) (g : Wd) : Nat :=
  (targets.map (fun t => targets.countP (fun w => (Hint.fromGuess t g).matchWord w))).sum

/-- The initial accumulator score of the selection fold:
`std::numeric_limits<score_t>::max()`. -/
def maxScoreSentinel : Nat := 2 ^ 64 - 1

/-- The selection fold of `getNextGuess`: `std::accumulate` over the
guess/score pairs keeping the pair with the strictly smaller score,
starting from `(nonWord, maxScoreSentinel)`. -/
def selectBest (targets guessWords : List Wd) : Wd :=
  (guessWords.foldl
    (fun best g => if score targets g < best.2 then (g, score targets g) else best)
    (nonWord, maxScoreSentinel)).1

/-- The error outcomes of the solver core: `"No matching words found."`
and `"Answer ... was not found in ... tries."`. -/
inductive SolveError where
  | emptyCandidatePool
  | budgetExhausted
deriving DecidableEq, Repr

/-- `getNextGuess`: error on an empty pool, the front of the pool when
at most two candidates remain, otherwise the best-scoring guess word. -/
def getNextGuess (targets guessWords : List Wd) : Except SolveError Wd :=
  match targets with
  | [] => .error .emptyCandidatePool
  | t :: ts =>
    if (t :: ts).length ≤ 2 then .ok t
    else .ok (selectBest (t :: ts) guessWords)

/-- `maxGuessesT` in `solveWord`: 99 in hard mode, else `maxGuesses`. -/
def maxGuessesT (hardMode : Bool) : Nat := if hardMode then 99 else maxGuesses

/-- The guess selection at the top of the loop body of `solveWord`: the
single remaining candidate if only one is left, else the caller-supplied
first guess on round 0, else `getNextGuess`. -/
def chooseGuess (firstGuess : Option Wd) (targets guesses : List Wd) (i : Nat) :
    Except SolveError Wd :=
  if targets.length = 1 then .ok (targets.headD nonWord)
  else if i = 0 && firstGuess.isSome then .ok (firstGuess.getD nonWord)
  else getNextGuess targets guesses

/-- The loop body of `solveWord`, with the loop counter `i` and the
remaining iterations `fuel` made explicit (the source iterates `i` from
0 while `i < maxGuessesT`, so `i + fuel = maxGuessesT` throughout). -/
def solveLoop (hardMode : Bool) (firstGuess : Option Wd) (target : Wd) :
    List Wd → List Wd → Nat → Nat → Except SolveError (Wd × Nat)
  | _, _, _, 0 => .error .budgetExhausted
  | targets, guesses, i, fuel + 1 =>
    match chooseGuess firstGuess targets guesses i with
    | .error e => .error e
    | .ok guess =>
      if guess = target then .ok (guess, i + 1)
      else
        let ht := Hint.fromGuess target guess
        let targets' := nextTargets target guess targets
        let guesses' := if hardMode then filterTargets [ht] guesses else guesses
        if targets' = [] then .error .emptyCandidatePool
        else solveLoop hardMode firstGuess target targets' guesses' (i + 1) fuel

/-- `solveWord`: run the guessing loop for at most `maxGuessesT` rounds. -/
def solveWord (hardMode : Bool) (firstGuess : Option Wd) (target : Wd)
    (targetWords guessWords : List Wd) : Except SolveError (Wd × Nat) :=
  solveLoop hardMode firstGuess target targetWords guessWords 0 (maxGuessesT hardMode)

/-- The values `getRandomTarget` can draw:
`std::uniform_int_distribution<uint64_t>(1, std::size(allTargets))`
produces every integer of the closed interval `[1, n]`, and the drawn
value is used directly as the index into `allTargets`. -/
def randIndexPossible (n k : Nat) : Prop := 1 ≤ k ∧ k ≤ n

/-- Safe indexing into the `allTargets` array of size `n`. -/
def randIndexInBounds (n k : Nat) : Prop := k < n

/-! ### General list helpers -/

/-- Two lists of equal length have equal `countP`s when the predicates
agree position by position. -/
theorem countP_congr_idx {α β : Type} (p : α → Bool) (q : β → Bool) :
    ∀ (l1 : List α) (l2 : List β), l1.length = l2.length →
      (∀ i (h1 : i < l1.length) (h2 : i < l2.length), p l1[i] = q l2[i]) →
      l1.countP p = l2.countP q
  | [], [], _, _ => by simp
  | [], b :: l2, hlen, _ => by simp at hlen
  | a :: l1, [], hlen, _ => by simp at hlen
  | a :: l1, b :: l2, hlen, hpt => by
    have h0 := hpt 0 (by simp) (by simp)
    simp only [List.getElem_cons_zero] at h0
    have ih := countP_congr_idx p q l1 l2 (by simpa using hlen)
      (fun i h1 h2 => by
        have := hpt (i + 1) (by simpa using Nat.succ_lt_succ h1)
          (by simpa using Nat.succ_lt_succ h2)
        simpa using this)
    simp [List.countP_cons, h0, ih]

/-- `countP` of a disjunction of disjoint predicates is the sum of the
`countP`s. -/
theorem countP_or_disjoint {α : Type} (p q : α → Bool) :
    ∀ l : List α, (∀ a ∈ l, ¬(p a = true ∧ q a = true)) →
      l.countP (fun a => p a || q a) = l.countP p + l.countP q
  | [], _ => by simp
  | a :: l, hdisj => by
    have ih := countP_or_disjoint p q l (fun x hx => hdisj x (List.mem_cons_of_mem a hx))
    have hda := hdisj a (List.mem_cons_self a l)
    cases hp : p a <;> cases hq : q a <;>
      simp_all [List.countP_cons] <;> omega

/-! ### Lemmas about `consume` -/

theorem consume_eq_none_iff (c : Char) : ∀ ts : List Char, consume c ts = none ↔ c ∉ ts
  | [] => by simp [consume]
  | t :: ts => by
    by_cases hct : c = t
    · simp [consume, hct]
    · cases h : consume c ts <;>
        simp [consume, hct, h, Ne.symm hct, ← consume_eq_none_iff c ts]

theorem consume_some_decomp (c : Char) :
    ∀ (ts ts' : List Char), consume c ts = some ts' →
      ∃ a b, ts = a ++ c :: b ∧ ts' = a ++ '.' :: b ∧ c ∉ a
  | [], _, h => by simp [consume] at h
  | t :: ts, ts', h => by
    by_cases hct : c = t
    · refine ⟨[], ts, by simp [← hct], ?_, by simp⟩
      simp [consume, hct] at h
      simp [← h]
    · simp only [consume, if_neg hct] at h
      cases hrec : consume c ts with
      | none => rw [hrec] at h; simp at h
      | some ts'' =>
        rw [hrec] at h
        simp only [Option.map] at h
        rw [Option.some.injEq] at h
        obtain ⟨a, b, hts, hts', hca⟩ := consume_some_decomp c ts ts'' hrec
        refine ⟨t :: a, b, by simp [hts], by simp [← h, hts'], ?_⟩
        simp only [List.mem_cons, not_or]
        exact ⟨hct, hca⟩

theorem consume_count_self {c : Char} (hc : c ≠ '.') {ts ts' : List Char}
    (h : consume c ts = some ts') : ts'.count c + 1 = ts.count c := by
  obtain ⟨a, b, hts, hts', _⟩ := consume_some_decomp c ts ts' h
  subst hts hts'
  simp [List.count_append, List.count_cons, hc]
  omega

theorem consume_count_other {c d : Char} (hd : d ≠ c) (hd2 : d ≠ '.') {ts ts' : List Char}
    (h : consume c ts = some ts') : ts'.count d = ts.count d := by
  obtain ⟨a, b, hts, hts', _⟩ := consume_some_decomp c ts ts' h
  subst hts hts'
  simp [List.count_append, List.count_cons, Ne.symm hd, Ne.symm hd2]

theorem consume_mem {c : Char} {ts ts' : List Char} (h : consume c ts = some ts') : c ∈ ts := by
  by_contra hmem
  rw [← consume_eq_none_iff] at hmem
  rw [hmem] at h
  exact Option.noConfusion h

/-! ### Lemmas about `dGreen` -/

theorem dGreen_nil_left (ts : List Char) : dGreen [] ts = ([], [], []) := by
  cases ts <;> rfl

theorem dGreen_nil_right (gs : List Char) : dGreen gs [] = ([], [], []) := by
  cases gs <;> rfl

theorem dGreen_cons (g t : Char) (gs ts : List Char) :
    dGreen (g :: gs) (t :: ts) =
      if g = t then
        ('g' :: (dGreen gs ts).1, '.' :: (dGreen gs ts).2.1, '.' :: (dGreen gs ts).2.2)
      else ('.' :: (dGreen gs ts).1, g :: (dGreen gs ts).2.1, t :: (dGreen gs ts).2.2) := by
  by_cases h : g = t <;> simp [dGreen, h]

theorem dGreen_lengths : ∀ gs ts : List Char,
    (dGreen gs ts).1.length = min gs.length ts.length ∧
    (dGreen gs ts).2.1.length = min gs.length ts.length ∧
    (dGreen gs ts).2.2.length = min gs.length ts.length
  | [], ts => by simp [dGreen_nil_left]
  | g :: gs, [] => by simp [dGreen_nil_right]
  | g :: gs, t :: ts => by
    have ih := dGreen_lengths gs ts
    rw [dGreen_cons]
    by_cases h : g = t <;>
      simp [h, ih.1, ih.2.1, ih.2.2, Nat.succ_min_succ]

theorem dGreen_get : ∀ (gs ts : List Char) (i : Nat) (hg : i < gs.length) (ht : i < ts.length)
    (h1 : i < (dGreen gs ts).1.length) (h2 : i < (dGreen gs ts).2.1.length)
    (h3 : i < (dGreen gs ts).2.2.length),
    ((dGreen gs ts).1[i] = if gs[i] = ts[i] then 'g' else '.') ∧
    ((dGreen gs ts).2.1[i] = if gs[i] = ts[i] then '.' else gs[i]) ∧
    ((dGreen gs ts).2.2[i] = if gs[i] = ts[i] then '.' else ts[i])
  | g :: gs, t :: ts, 0, _, _, h1, h2, h3 => by
    by_cases h : g = t <;> simp_all [dGreen_cons, h]
  | g :: gs, t :: ts, i + 1, hg, ht, h1, h2, h3 => by
    have hg' : i < gs.length := by simpa using hg
    have ht' : i < ts.length := by simpa using ht
    have hl := dGreen_lengths gs ts
    have h1' : i < (dGreen gs ts).1.length := by omega
    have h2' : i < (dGreen gs ts).2.1.length := by omega
    have h3' : i < (dGreen gs ts).2.2.length := by omega
    have ih := dGreen_get gs ts i hg' ht' h1' h2' h3'
    by_cases h : g = t <;>
      simp_all [dGreen_cons, h, List.getElem_cons_succ]

theorem dGreen_hint_vals {gs ts : List Char} :
    ∀ h ∈ (dGreen gs ts).1, h = 'g' ∨ h = '.' := by
  intro h hmem
  rw [List.mem_iff_getElem] at hmem
  obtain ⟨i, hi, hget⟩ := hmem
  have hl := dGreen_lengths gs ts
  have hg : i < gs.length := by omega
  have ht : i < ts.length := by omega
  have := (dGreen_get gs ts i hg ht hi (by omega) (by omega)).1
  rw [hget] at this
  by_cases hgt : gs[i] = ts[i] <;> simp_all

/-! ### Lemmas about `dYellow` -/

theorem dYellow_nil_left (hs ts : List Char) : dYellow [] hs ts = ([], ts) := by
  cases hs <;> rfl

theorem dYellow_nil_mid (g : Char) (gs ts : List Char) : dYellow (g :: gs) [] ts = ([], ts) := rfl

theorem dYellow_cons_dot (h : Char) (gs hs ts : List Char) :
    dYellow ('.' :: gs) (h :: hs) ts = (h :: (dYellow gs hs ts).1, (dYellow gs hs ts).2) := by
  simp [dYellow]

theorem dYellow_cons_some {g : Char} (hg : g ≠ '.') (h : Char) (gs hs ts ts' : List Char)
    (hcons : consume g ts = some ts') :
    dYellow (g :: gs) (h :: hs) ts = ('y' :: (dYellow gs hs ts').1, (dYellow gs hs ts').2) := by
  simp [dYellow, hg, hcons]

theorem dYellow_cons_none {g : Char} (hg : g ≠ '.') (h : Char) (gs hs ts : List Char)
    (hcons : consume g ts = none) :
    dYellow (g :: gs) (h :: hs) ts = (h :: (dYellow gs hs ts).1, (dYellow gs hs ts).2) := by
  simp [dYellow, hg, hcons]

theorem dYellow_hint_length : ∀ (gs hs ts : List Char), gs.length = hs.length →
    (dYellow gs hs ts).1.length = gs.length
  | [], hs, ts, _ => by simp [dYellow_nil_left]
  | g :: gs, [], ts, hlen => by simp at hlen
  | g :: gs, h :: hs, ts, hlen => by
    have hlen' : gs.length = hs.length := by simpa using hlen
    by_cases hg : g = '.'
    · subst hg
      simp [dYellow_cons_dot, dYellow_hint_length gs hs ts hlen']
    · cases hcons : consume g ts with
      | some ts' => simp [dYellow_cons_some hg h gs hs ts ts' hcons,
          dYellow_hint_length gs hs ts' hlen']
      | none => simp [dYellow_cons_none hg h gs hs ts hcons,
          dYellow_hint_length gs hs ts hlen']

theorem dYellow_get : ∀ (gs hs ts : List Char) (i : Nat), gs.length = hs.length →
    (hg : i < gs.length) → (hh : i < hs.length) → (hH : i < (dYellow gs hs ts).1.length) →
    (gs[i] = '.' → (dYellow gs hs ts).1[i] = hs[i]) ∧
    ((dYellow gs hs ts).1[i] = 'y' ∨ (dYellow gs hs ts).1[i] = hs[i])
  | g :: gs, h :: hs, ts, 0, hlen, hg, hh, hH => by
    by_cases hgd : g = '.'
    · subst hgd
      simp [dYellow_cons_dot]
    · cases hcons : consume g ts with
      | some ts' => simp [dYellow_cons_some hgd h gs hs ts ts' hcons, hgd]
      | none => simp [dYellow_cons_none hgd h gs hs ts hcons]
  | g :: gs, h :: hs, ts, i + 1, hlen, hg, hh, hH => by
    have hlen' : gs.length = hs.length := by simpa using hlen
    have hg' : i < gs.length := by simpa using hg
    have hh' : i < hs.length := by simpa using hh
    by_cases hgd : g = '.'
    · subst hgd
      have hH' : i < (dYellow gs hs ts).1.length := by
        rw [dYellow_hint_length gs hs ts hlen']; exact hg'
      have ih := dYellow_get gs hs ts i hlen' hg' hh' hH'
      simpa [dYellow_cons_dot] using ih
    · cases hcons : consume g ts with
      | some ts' =>
        have hH' : i < (dYellow gs hs ts').1.length := by
          rw [dYellow_hint_length gs hs ts' hlen']; exact hg'
        have ih := dYellow_get gs hs ts' i hlen' hg' hh' hH'
        simpa [dYellow_cons_some hgd h gs hs ts ts' hcons] using ih
      | none =>
        have hH' : i < (dYellow gs hs ts).1.length := by
          rw [dYellow_hint_length gs hs ts hlen']; exact hg'
        have ih := dYellow_get gs hs ts i hlen' hg' hh' hH'
        simpa [dYellow_cons_none hgd h gs hs ts hcons] using ih

/-- The yellow marks the derivation hands out for a letter `c` never
exceed the number of occurrences of `c` left in the target copy. -/
theorem dYellow_count_le : ∀ (gs hs ts : List Char) (c : Char), c ≠ '.' →
    (∀ h ∈ hs, h ≠ 'y') →
    (gs.zip (dYellow gs hs ts).1).countP (fun p => p.1 = c && p.2 = 'y') ≤ ts.count c
  | [], hs, ts, c, _, _ => by simp [dYellow_nil_left]
  | g :: gs, [], ts, c, _, _ => by simp [dYellow_nil_mid]
  | g :: gs, h :: hs, ts, c, hc, hnoy => by
    have hnoy' : ∀ x ∈ hs, x ≠ 'y' := fun x hx => hnoy x (List.mem_cons_of_mem h hx)
    have hh : h ≠ 'y' := hnoy h (List.mem_cons_self h hs)
    by_cases hgd : g = '.'
    · subst hgd
      have ih := dYellow_count_le gs hs ts c hc hnoy'
      simp only [dYellow_cons_dot, List.zip_cons_cons, List.countP_cons]
      have hhead : (decide (('.' : Char) = c) && decide (h = 'y')) = false := by
        simp [Ne.symm hc]
      simpa [hhead] using ih
    · cases hcons : consume g ts with
      | some ts' =>
        have ih := dYellow_count_le gs hs ts' c hc hnoy'
        rw [dYellow_cons_some hgd h gs hs ts ts' hcons]
        by_cases hgc : g = c
        · subst hgc
          have hcnt := consume_count_self hgd hcons
          simp [List.zip_cons_cons, List.countP_cons]
          omega
        · have hcnt := consume_count_other (fun hx => hgc hx.symm) hc hcons
          simp [List.zip_cons_cons, List.countP_cons, hgc, hcnt]
          omega
      | none =>
        have ih := dYellow_count_le gs hs ts c hc hnoy'
        rw [dYellow_cons_none hgd h gs hs ts hcons]
        simp only [List.zip_cons_cons, List.countP_cons]
        have hhead : (decide (g = c) && decide (h = 'y')) = false := by
          simp [hh]
        simpa [hhead] using ih

/-- If some occurrence of the letter `c` in the guess ends up grey
(hint `'.'`), the derivation ran out of occurrences of `c` in the target
copy, so every occurrence of `c` in the target copy was consumed by a
yellow mark. -/
theorem dYellow_exhaust : ∀ (gs hs ts : List Char) (c : Char), c ≠ '.' →
    (∃ p ∈ gs.zip (dYellow gs hs ts).1, p.1 = c ∧ p.2 = '.') →
    ts.count c ≤ (gs.zip (dYellow gs hs ts).1).countP (fun p => p.1 = c && p.2 = 'y')
  | [], hs, ts, c, _, hwit => by
    simp [dYellow_nil_left] at hwit
  | g :: gs, [], ts, c, _, hwit => by
    simp [dYellow_nil_mid] at hwit
  | g :: gs, h :: hs, ts, c, hc, hwit => by
    by_cases hgd : g = '.'
    · subst hgd
      rw [dYellow_cons_dot] at hwit ⊢
      obtain ⟨p, hp, hp1, hp2⟩ := hwit
      rw [List.zip_cons_cons, List.mem_cons] at hp
      rcases hp with hp | hp
      · rw [hp] at hp1; exact absurd hp1 (Ne.symm hc)
      · have ih := dYellow_exhaust gs hs ts c hc ⟨p, hp, hp1, hp2⟩
        simp only [List.zip_cons_cons, List.countP_cons]
        have hhead : (decide (('.' : Char) = c) && decide (h = 'y')) = false := by
          simp [Ne.symm hc]
        simp [hhead]
        omega
    · cases hcons : consume g ts with
      | some ts' =>
        rw [dYellow_cons_some hgd h gs hs ts ts' hcons] at hwit ⊢
        obtain ⟨p, hp, hp1, hp2⟩ := hwit
        rw [List.zip_cons_cons, List.mem_cons] at hp
        rcases hp with hp | hp
        · rw [hp] at hp2; exact absurd hp2 (by simp)
        · have ih := dYellow_exhaust gs hs ts' c hc ⟨p, hp, hp1, hp2⟩
          by_cases hgc : g = c
          · subst hgc
            have hcnt := consume_count_self hgd hcons
            simp [List.zip_cons_cons, List.countP_cons]
            omega
          · have hcnt := consume_count_other (fun hx => hgc hx.symm) hc hcons
            simp [List.zip_cons_cons, List.countP_cons, hgc, hcnt]
            omega
      | none =>
        rw [dYellow_cons_none hgd h gs hs ts hcons] at hwit ⊢
        by_cases hgc : g = c
        · subst hgc
          have : g ∉ ts := (consume_eq_none_iff g ts).mp hcons
          rw [List.count_eq_zero_of_not_mem this]
          exact Nat.zero_le _
        · obtain ⟨p, hp, hp1, hp2⟩ := hwit
          rw [List.zip_cons_cons, List.mem_cons] at hp
          rcases hp with hp | hp
          · rw [hp] at hp1; exact absurd hp1 hgc
          · have ih := dYellow_exhaust gs hs ts c hc ⟨p, hp, hp1, hp2⟩
            simp [List.zip_cons_cons, List.countP_cons, hgc]
            omega

/-! ### Lemmas about the state of `Hint::match` -/

/-- The immutable components of a position (everything but the matched flag). -/
def entKey (e : Ent) : Char × Char × Char := (e.w, e.g, e.h)

/-- Number of still-unmatched positions holding the word letter `c`. -/
def cntUnm (c : Char) (st : List Ent) : Nat := st.countP (fun e => e.w = c && !e.m)

/-- A state is good when no position has its own guess letter re-marked
yellow at itself: whenever the hint is `'y'`, the guess letter differs
from the word letter there.  (`Hint::fromGuess` only produces such
hints.) -/
def goodSt (st : List Ent) : Prop := ∀ e ∈ st, e.h = 'y' → e.g ≠ e.w

theorem greenPass_eq : ∀ es : List Ent, (∀ e ∈ es, e.h = 'g' → e.w = e.g) →
    greenPass es = some (es.map (fun e => if e.h = 'g' then mark e else e))
  | [], _ => rfl
  | e :: es, hyp => by
    have ih := greenPass_eq es (fun x hx => hyp x (List.mem_cons_of_mem e hx))
    by_cases hh : e.h = 'g'
    · have hw : e.w = e.g := hyp e (List.mem_cons_self e es) hh
      simp [greenPass, hh, hw, ih]
    · simp [greenPass, hh, ih]

theorem yfind_none : ∀ st : List Ent, yfind c st = none → ∀ e ∈ st, yOk c e = false
  | [], _, e, he => absurd he (List.not_mem_nil e)
  | x :: es, h, e, he => by
    by_cases hok : yOk c x
    · simp [yfind, hok] at h
    · have hok' : yOk c x = false := by simpa using hok
      rcases List.mem_cons.mp he with he | he
      · rw [he]; exact hok'
      · cases hrec : yfind c es with
        | none => exact yfind_none es hrec e he
        | some es' => rw [yfind, if_neg hok, hrec] at h; simp at h

theorem yfind_some_decomp : ∀ (st st' : List Ent), yfind c st = some st' →
    ∃ a e b, st = a ++ e :: b ∧ yOk c e = true ∧ (∀ x ∈ a, yOk c x = false) ∧
      st' = a ++ mark e :: b
  | [], st', h => by simp [yfind] at h
  | x :: es, st', h => by
    by_cases hok : yOk c x
    · rw [yfind, if_pos hok] at h
      rw [Option.some.injEq] at h
      exact ⟨[], x, es, by simp, hok, by simp, by simp [← h]⟩
    · have hok' : yOk c x = false := by simpa using hok
      rw [yfind, if_neg hok] at h
      cases hrec : yfind c es with
      | none => rw [hrec] at h; simp at h
      | some es' =>
        rw [hrec] at h
        simp only [Option.map] at h
        rw [Option.some.injEq] at h
        obtain ⟨a, e, b, h1, h2, h3, h4⟩ := yfind_some_decomp es es' hrec
        refine ⟨x :: a, e, b, by simp [h1], h2, ?_, by simp [← h, h4]⟩
        intro y hy
        rcases List.mem_cons.mp hy with hy | hy
        · rw [hy]; exact hok'
        · exact h3 y hy

theorem yOk_true_elim {c : Char} {e : Ent} (h : yOk c e = true) :
    e.w = c ∧ e.m = false ∧ ¬(e.h = 'y' ∧ e.g = c) := by
  unfold yOk at h
  simp only [Bool.and_eq_true, Bool.not_eq_true', decide_eq_true_eq] at h
  refine ⟨h.1.1, h.2, ?_⟩
  intro ⟨hy, hg⟩
  rw [hy, hg] at h
  simp at h

theorem yOk_of_good {c : Char} {e : Ent} (hgood : e.h = 'y' → e.g ≠ e.w)
    (hw : e.w = c) (hm : e.m = false) : yOk c e = true := by
  by_cases hy : e.h = 'y'
  · have hg : e.g ≠ c := fun hgc => (hgood hy) (hgc.trans hw.symm)
    simp [yOk, hw, hm, hy, hg]
  · simp [yOk, hw, hm, hy]

theorem yfind_some_of_cnt {c : Char} {st : List Ent} (hgood : goodSt st)
    (h : 0 < cntUnm c st) : ∃ st', yfind c st = some st' := by
  cases hfind : yfind c st with
  | some st' => exact ⟨st', rfl⟩
  | none =>
    exfalso
    rw [cntUnm, List.countP_pos_iff] at h
    obtain ⟨e, he, hpe⟩ := h
    simp only [Bool.and_eq_true, Bool.not_eq_true', decide_eq_true_eq] at hpe
    have := yfind_none st hfind e he
    rw [yOk_of_good (hgood e he) hpe.1 hpe.2] at this
    exact Bool.noConfusion this

theorem yfind_cnt_self {c : Char} {st st' : List Ent} (h : yfind c st = some st') :
    cntUnm c st' + 1 = cntUnm c st := by
  obtain ⟨a, e, b, h1, h2, _, h4⟩ := yfind_some_decomp st st' h
  obtain ⟨hw, hm, _⟩ := yOk_true_elim h2
  subst h1 h4
  simp [cntUnm, List.countP_append, List.countP_cons, mark, hw, hm]
  omega

theorem yfind_cnt_other {c d : Char} {st st' : List Ent} (hd : d ≠ c)
    (h : yfind c st = some st') : cntUnm d st' = cntUnm d st := by
  obtain ⟨a, e, b, h1, h2, _, h4⟩ := yfind_some_decomp st st' h
  obtain ⟨hw, hm, _⟩ := yOk_true_elim h2
  subst h1 h4
  have hne : (e.w = d) = False := by simp [hw, Ne.symm hd]
  simp [cntUnm, List.countP_append, List.countP_cons, mark, hne]

theorem yfind_key {c : Char} {st st' : List Ent} (h : yfind c st = some st') :
    st'.map entKey = st.map entKey := by
  obtain ⟨a, e, b, h1, _, _, h4⟩ := yfind_some_decomp st st' h
  subst h1 h4
  simp [entKey, mark]

theorem yfind_good {c : Char} {st st' : List Ent} (hgood : goodSt st)
    (h : yfind c st = some st') : goodSt st' := by
  obtain ⟨a, e, b, h1, _, _, h4⟩ := yfind_some_decomp st st' h
  subst h1 h4
  intro x hx
  rcases List.mem_append.mp hx with hx | hx
  · exact hgood x (List.mem_append_left _ hx)
  · rcases List.mem_cons.mp hx with hx | hx
    · subst hx
      exact fun hy => hgood e (List.mem_append_right _ (List.mem_cons_self e b)) hy
    · exact hgood x (List.mem_append_right _ (List.mem_cons_of_mem e hx))

/-! ### Lemmas about `yellowPass` -/

/-- Number of yellow-marked positions of the hint holding the guess
letter `c` (counted over guess/hint pairs). -/
def yCnt (c : Char) (ghs : List (Char × Char)) : Nat :=
  ghs.countP (fun p => p.1 = c && p.2 = 'y')

theorem yCnt_cons_yellow (c c0 : Char) (rest : List (Char × Char)) :
    yCnt c ((c0, 'y') :: rest) = yCnt c rest + (if c0 = c then 1 else 0) := by
  by_cases h : c0 = c <;> simp [yCnt, List.countP_cons, h]

theorem yCnt_cons_other {h0 : Char} (hh : h0 ≠ 'y') (c c0 : Char) (rest : List (Char × Char)) :
    yCnt c ((c0, h0) :: rest) = yCnt c rest := by
  simp [yCnt, List.countP_cons, hh]

/-- When every yellow request can still be served (for each letter, the
number of yellow positions does not exceed the number of unmatched word
positions holding that letter), the yellow pass succeeds, and it
consumes exactly one unmatched position per yellow request. -/
theorem yellowPass_total : ∀ (ghs : List (Char × Char)) (st : List Ent), goodSt st →
    (∀ p ∈ ghs, p.2 = 'y' → p.1 ≠ '.') →
    (∀ c : Char, c ≠ '.' → yCnt c ghs ≤ cntUnm c st) →
    ∃ st', yellowPass ghs st = some st' ∧
      (∀ c : Char, c ≠ '.' → cntUnm c st' + yCnt c ghs = cntUnm c st) ∧
      goodSt st' ∧ st'.map entKey = st.map entKey
  | [], st, hgood, _, _ => ⟨st, rfl, by simp [yCnt], hgood, rfl⟩
  | (c0, h0) :: rest, st, hgood, hdot, havail => by
    by_cases hy : h0 = 'y'
    · subst hy
      have hc0 : c0 ≠ '.' :=
        hdot (c0, 'y') (List.mem_cons_self _ rest) rfl

      have havail0 : yCnt c0 ((c0, 'y') :: rest) ≤ cntUnm c0 st := havail c0 hc0
      rw [yCnt_cons_yellow, if_pos rfl] at havail0
      have hpos : 0 < cntUnm c0 st := by omega
      obtain ⟨st1, hfind⟩ := yfind_some_of_cnt hgood hpos
      have hself := yfind_cnt_self hfind
      have hgood1 := yfind_good hgood hfind
      have hkey1 := yfind_key hfind
      have havail1 : ∀ c : Char, c ≠ '.' → yCnt c rest ≤ cntUnm c st1 := by
        intro c hc
        by_cases hcc : c = c0
        · subst hcc; omega
        · have := havail c hc
          rw [yCnt_cons_yellow, if_neg (fun h => hcc h.symm)] at this
          rw [yfind_cnt_other hcc hfind]
          omega
      obtain ⟨st', hpass, hcnt, hgood', hkey'⟩ :=
        yellowPass_total rest st1 hgood1
          (fun p hp => hdot p (List.mem_cons_of_mem _ hp)) havail1
      refine ⟨st', by simp [yellowPass, hfind, hpass], ?_, hgood', hkey'.trans hkey1⟩
      intro c hc
      by_cases hcc : c = c0
      · subst hcc
        rw [yCnt_cons_yellow, if_pos rfl]
        have := hcnt c hc
        omega
      · rw [yCnt_cons_yellow, if_neg (fun h => hcc h.symm)]
        have := hcnt c hc
        rw [yfind_cnt_other hcc hfind] at this
        omega
    · have havail' : ∀ c : Char, c ≠ '.' → yCnt c rest ≤ cntUnm c st := by
        intro c hc
        have := havail c hc
        rwa [yCnt_cons_other hy] at this
      obtain ⟨st', hpass, hcnt, hgood', hkey'⟩ :=
        yellowPass_total rest st hgood
          (fun p hp => hdot p (List.mem_cons_of_mem _ hp)) havail'
      refine ⟨st', by simp [yellowPass, hy, hpass], ?_, hgood', hkey'⟩
      intro c hc
      rw [yCnt_cons_other hy]
      exact hcnt c hc

/-- Through a successful yellow pass the unmatched count of any letter
drops by at most the number of yellow positions for that letter. -/
theorem yellowPass_cnt_ge : ∀ (ghs : List (Char × Char)) (st st' : List Ent),
    yellowPass ghs st = some st' → ∀ c, cntUnm c st ≤ cntUnm c st' + yCnt c ghs
  | [], st, st', h, c => by
    simp only [yellowPass] at h
    rw [Option.some.injEq] at h
    subst h
    simp [yCnt]
  | (c0, h0) :: rest, st, st', h, c => by
    by_cases hy : h0 = 'y'
    · subst hy
      rw [yellowPass, if_pos rfl] at h
      cases hfind : yfind c0 st with
      | none => rw [hfind] at h; exact absurd h (by simp)
      | some st1 =>
        rw [hfind] at h
        have ih := yellowPass_cnt_ge rest st1 st' h c
        by_cases hcc : c = c0
        · subst hcc
          have := yfind_cnt_self hfind
          rw [yCnt_cons_yellow, if_pos rfl]
          omega
        · have := yfind_cnt_other hcc hfind
          rw [yCnt_cons_yellow, if_neg (fun hx => hcc hx.symm)]
          omega
    · rw [yellowPass, if_neg hy] at h
      have ih := yellowPass_cnt_ge rest st st' h c
      rwa [yCnt_cons_other hy]

theorem yellowPass_key : ∀ (ghs : List (Char × Char)) (st st' : List Ent),
    yellowPass ghs st = some st' → st'.map entKey = st.map entKey
  | [], st, st', h => by
    simp only [yellowPass] at h
    rw [Option.some.injEq] at h
    subst h
    rfl
  | (c0, h0) :: rest, st, st', h => by
    by_cases hy : h0 = 'y'
    · subst hy
      rw [yellowPass, if_pos rfl] at h
      cases hfind : yfind c0 st with
      | none => rw [hfind] at h; exact absurd h (by simp)
      | some st1 =>
        rw [hfind] at h
        exact (yellowPass_key rest st1 st' h).trans (yfind_key hfind)
    · rw [yellowPass, if_neg hy] at h
      exact yellowPass_key rest st st' h

/-- If a successful yellow pass served at least one yellow request, in a
state whose entries repeat the guess letter as the word letter (the
candidate IS the guess) and whose green positions are all marked, then
some position of the state is grey (hint `'.'`). -/
theorem yellowPass_found_dot : ∀ (ghs : List (Char × Char)) (st st' : List Ent),
    yellowPass ghs st = some st' → (∃ p ∈ ghs, p.2 = 'y') →
    (∀ e ∈ st, e.w = e.g) → (∀ e ∈ st, e.h = 'g' → e.m = true) →
    (∀ e ∈ st, e.h = 'g' ∨ e.h = 'y' ∨ e.h = '.') →
    ∃ e ∈ st, e.h = '.'
  | [], st, st', _, hwit, _, _, _ => by simp at hwit
  | (c0, h0) :: rest, st, st', h, hwit, hwg, hgm, hvals => by
    by_cases hy : h0 = 'y'
    · subst hy
      rw [yellowPass, if_pos rfl] at h
      cases hfind : yfind c0 st with
      | none => rw [hfind] at h; exact absurd h (by simp)
      | some st1 =>
        obtain ⟨a, e, b, h1, h2, _, _⟩ := yfind_some_decomp st st1 hfind
        obtain ⟨hw, hm, hnk⟩ := yOk_true_elim h2
        have hmem : e ∈ st := h1 ▸ List.mem_append_right a (List.mem_cons_self e b)
        refine ⟨e, hmem, ?_⟩
        have hwg' := hwg e hmem
        rcases hvals e hmem with hv | hv | hv
        · exact absurd (hgm e hmem hv) (by rw [hm]; simp)
        · exact absurd ⟨hv, hwg'.symm.trans hw⟩ hnk
        · exact hv
    · rw [yellowPass, if_neg hy] at h
      obtain ⟨p, hp, hpy⟩ := hwit
      rcases List.mem_cons.mp hp with hp | hp
      · rw [hp] at hpy; exact absurd hpy hy
      · exact yellowPass_found_dot rest st st' h ⟨p, hp, hpy⟩ hwg hgm hvals

/-! ### Lemmas about the grey pass -/

theorem greyOk_iff (c : Char) (st : List Ent) : greyOk c st = true ↔ cntUnm c st = 0 := by
  rw [greyOk, List.all_eq_true, cntUnm, List.countP_eq_zero]
  constructor
  · intro h e he
    have := h e he
    simp only [Bool.not_eq_true'] at this
    simp [this]
  · intro h e he
    have hx := h e he
    rw [Bool.not_eq_true']
    exact Bool.eq_false_iff.mpr hx

theorem greyPass_iff (ghs : List (Char × Char)) (st : List Ent) :
    greyPass ghs st = true ↔ ∀ p ∈ ghs, p.2 = '.' → greyOk p.1 st = true := by
  rw [greyPass, List.all_eq_true]
  constructor
  · intro h p hp hdot
    have := h p hp
    rwa [if_pos hdot] at this
  · intro h p hp
    by_cases hdot : p.2 = '.'
    · rw [if_pos hdot]; exact h p hp hdot
    · rw [if_neg hdot]

/-! ### Lemmas about `mkEnts` -/

theorem mkEnts_length (word guess hint : Wd) :
    (mkEnts word guess hint).length = min word.length (min guess.length hint.length) := by
  simp [mkEnts]

theorem mkEnts_get (word guess hint : Wd) (i : Nat) (hi : i < (mkEnts word guess hint).length)
    (h1 : i < word.length) (h2 : i < guess.length) (h3 : i < hint.length) :
    (mkEnts word guess hint)[i] = ⟨word[i], guess[i], hint[i], false⟩ := by
  simp [mkEnts, List.getElem_map, List.getElem_zip]

/-! ### Facts about the hint produced by `Hint::fromGuess` -/

theorem fromGuess_guess_def (t g : Wd) : (Hint.fromGuess t g).guess = g := rfl

theorem fromGuess_hint_def (t g : Wd) : (Hint.fromGuess t g).hint =
    (dYellow (dGreen g t).2.1 (dGreen g t).1 (dGreen g t).2.2).1 := rfl

theorem fromGuess_hint_length (t g : Wd) (hlen : g.length = t.length) :
    (Hint.fromGuess t g).hint.length = g.length := by
  have hg := dGreen_lengths g t
  rw [fromGuess_hint_def, dYellow_hint_length _ _ _ (by omega)]
  omega

theorem fromGuess_hint_get (t g : Wd) (hlen : g.length = t.length) (i : Nat)
    (hi : i < g.length) (hit : i < t.length) (hH : i < (Hint.fromGuess t g).hint.length) :
    (g[i] = t[i] → (Hint.fromGuess t g).hint[i] = 'g') ∧
    (g[i] ≠ t[i] →
      ((Hint.fromGuess t g).hint[i] = 'y' ∨ (Hint.fromGuess t g).hint[i] = '.')) := by
  have hgl := dGreen_lengths g t
  have h1 : i < (dGreen g t).1.length := by omega
  have h2 : i < (dGreen g t).2.1.length := by omega
  have h3 : i < (dGreen g t).2.2.length := by omega
  have hdg := dGreen_get g t i hi hit h1 h2 h3
  have hH' : i < (dYellow (dGreen g t).2.1 (dGreen g t).1 (dGreen g t).2.2).1.length := by
    rw [← fromGuess_hint_def]; exact hH
  have hdy := dYellow_get (dGreen g t).2.1 (dGreen g t).1 (dGreen g t).2.2 i
    (by omega) (by omega) (by omega) hH'
  constructor
  · intro heq
    have hg1 : (dGreen g t).2.1[i] = '.' := by rw [hdg.2.1, if_pos heq]
    have hkeep := hdy.1 hg1
    have hgr : (dGreen g t).1[i] = 'g' := by rw [hdg.1, if_pos heq]
    exact hkeep.trans hgr
  · intro hne
    have hh1 : (dGreen g t).1[i] = '.' := by rw [hdg.1, if_neg hne]
    rcases hdy.2 with hv | hv
    · exact Or.inl hv
    · exact Or.inr (hv.trans hh1)

theorem fromGuess_green_iff (t g : Wd) (hlen : g.length = t.length) (i : Nat)
    (hi : i < g.length) (hit : i < t.length) (hH : i < (Hint.fromGuess t g).hint.length) :
    (Hint.fromGuess t g).hint[i] = 'g' ↔ g[i] = t[i] := by
  have h := fromGuess_hint_get t g hlen i hi hit hH
  constructor
  · intro hg
    by_contra hne
    rcases h.2 hne with hv | hv <;> rw [hg] at hv <;> exact absurd hv (by decide)
  · exact h.1

theorem fromGuess_hint_vals (t g : Wd) (hlen : g.length = t.length) (i : Nat)
    (hi : i < g.length) (hit : i < t.length) (hH : i < (Hint.fromGuess t g).hint.length) :
    (Hint.fromGuess t g).hint[i] = 'g' ∨ (Hint.fromGuess t g).hint[i] = 'y' ∨
      (Hint.fromGuess t g).hint[i] = '.' := by
  have h := fromGuess_hint_get t g hlen i hi hit hH
  by_cases heq : g[i] = t[i]
  · exact Or.inl (h.1 heq)
  · rcases h.2 heq with hv | hv
    · exact Or.inr (Or.inl hv)
    · exact Or.inr (Or.inr hv)

/-- Number of positions where the target holds `c` but the guess does
not match the target (the occurrences of `c` surviving the green pass of
the derivation). -/
def nonGreenCnt (t g : Wd) (c : Char) : Nat :=
  (t.zip g).countP (fun p => p.1 = c && !(p.2 = p.1))

theorem count_dGreen_target (t g : Wd) (hlen : g.length = t.length) (c : Char)
    (hc : c ≠ '.') : (dGreen g t).2.2.count c = nonGreenCnt t g c := by
  have hgl := dGreen_lengths g t
  rw [List.count_eq_countP, nonGreenCnt]
  apply countP_congr_idx
  · rw [List.length_zip]; omega
  · intro i hI h2
    have hzl : i < (t.zip g).length := h2
    have hit : i < t.length := by rw [List.length_zip] at hzl; omega
    have hig : i < g.length := by rw [List.length_zip] at hzl; omega
    have hdg := dGreen_get g t i hig hit (by omega) (by omega) hI
    rw [List.getElem_zip]
    by_cases heq : g[i] = t[i]
    · rw [hdg.2.2, if_pos heq]
      simp [Ne.symm hc, heq]
    · rw [hdg.2.2, if_neg heq]
      by_cases htc : t[i] = c
      · have hgc : g[i] ≠ c := fun h => heq (h.trans htc.symm)
        simp [htc, heq, hgc]
      · simp [htc]

theorem fromGuess_yCnt_eq (t g : Wd) (hlen : g.length = t.length) (c : Char) :
    yCnt c (g.zip (Hint.fromGuess t g).hint) =
      ((dGreen g t).2.1.zip (Hint.fromGuess t g).hint).countP
        (fun p => p.1 = c && p.2 = 'y') := by
  have hgl := dGreen_lengths g t
  have hHl : (Hint.fromGuess t g).hint.length = g.length := fromGuess_hint_length t g hlen
  rw [yCnt]
  apply countP_congr_idx
  · rw [List.length_zip, List.length_zip]; omega
  · intro i h1 h2
    have hig : i < g.length := by rw [List.length_zip] at h1; omega
    have hit : i < t.length := by omega
    have hiH : i < (Hint.fromGuess t g).hint.length := by omega
    have hg2 : i < (dGreen g t).2.1.length := by omega
    rw [List.getElem_zip, List.getElem_zip]
    by_cases hy : (Hint.fromGuess t g).hint[i] = 'y'
    · have hne : g[i] ≠ t[i] := by
        intro heq
        have := (fromGuess_hint_get t g hlen i hig hit hiH).1 heq
        rw [hy] at this; exact absurd this (by decide)
      have hdg := dGreen_get g t i hig hit (by omega) hg2 (by omega)
      have hg1 : (dGreen g t).2.1[i] = g[i] := by rw [hdg.2.1, if_neg hne]
      rw [hg1]
    · simp [hy]

theorem dGreen_hint_noy {gs ts : List Char} : ∀ h ∈ (dGreen gs ts).1, h ≠ 'y' := by
  intro h hm hy
  rw [hy] at hm
  rcases dGreen_hint_vals _ hm with h1 | h1 <;> exact absurd h1 (by decide)

theorem fromGuess_avail (t g : Wd) (hlen : g.length = t.length) (c : Char) (hc : c ≠ '.') :
    yCnt c (g.zip (Hint.fromGuess t g).hint) ≤ nonGreenCnt t g c := by
  rw [fromGuess_yCnt_eq t g hlen c, ← count_dGreen_target t g hlen c hc]
  exact dYellow_count_le (dGreen g t).2.1 (dGreen g t).1 (dGreen g t).2.2 c hc dGreen_hint_noy

theorem fromGuess_exhaust_at (t g : Wd) (hlen : g.length = t.length) (c : Char)
    (hc : c ≠ '.') (i : Nat) (hig : i < g.length) (hgi : g[i] = c)
    (hiH : i < (Hint.fromGuess t g).hint.length) (hHi : (Hint.fromGuess t g).hint[i] = '.') :
    nonGreenCnt t g c ≤ yCnt c (g.zip (Hint.fromGuess t g).hint) := by
  have hgl := dGreen_lengths g t
  have hit : i < t.length := by omega
  have hne : g[i] ≠ t[i] := by
    intro heq
    have := (fromGuess_hint_get t g hlen i hig hit hiH).1 heq
    rw [hHi] at this; exact absurd this (by decide)
  have hdg := dGreen_get g t i hig hit (by omega) (by omega) (by omega)
  have hg1 : (dGreen g t).2.1[i] = g[i] := by rw [hdg.2.1, if_neg hne]
  have hdyl : (dYellow (dGreen g t).2.1 (dGreen g t).1 (dGreen g t).2.2).1.length = g.length :=
    fromGuess_hint_length t g hlen
  rw [fromGuess_yCnt_eq t g hlen c, ← count_dGreen_target t g hlen c hc]
  apply dYellow_exhaust (dGreen g t).2.1 (dGreen g t).1 (dGreen g t).2.2 c hc
  have hzl : i < ((dGreen g t).2.1.zip
      (dYellow (dGreen g t).2.1 (dGreen g t).1 (dGreen g t).2.2).1).length := by
    rw [List.length_zip]; omega
  refine ⟨((dGreen g t).2.1.zip
      (dYellow (dGreen g t).2.1 (dGreen g t).1 (dGreen g t).2.2).1)[i], List.getElem_mem hzl,
      ?_, ?_⟩
  · rw [List.getElem_zip, hg1, hgi]
  · rw [List.getElem_zip]
    exact hHi

/-! ### Self-consistency of the derived feedback -/

/-- Core argument: a hint word whose green positions are exactly the
agreeing positions, whose yellow requests can be served, and whose grey
positions certify exhaustion, matches the target. -/
theorem matchWord_self_aux (t g H : Wd) (hlen : g.length = t.length)
    (hHl : H.length = g.length)
    (hgr : ∀ i (hig : i < g.length) (hit : i < t.length) (hiH : i < H.length),
      H[i] = 'g' ↔ g[i] = t[i])
    (hgd : ∀ x ∈ g, x ≠ '.')
    (havail : ∀ c, c ≠ '.' → yCnt c (g.zip H) ≤ nonGreenCnt t g c)
    (hexh : ∀ c, c ≠ '.' → ∀ j (hjg : j < g.length) (hjH : j < H.length),
      g[j] = c → H[j] = '.' → nonGreenCnt t g c ≤ yCnt c (g.zip H)) :
    (Hint.mk g H).matchWord t = true := by
  have hml : (mkEnts t g H).length = g.length := by
    rw [mkEnts_length]; omega
  have hmem0 : ∀ e ∈ mkEnts t g H, ∃ i, ∃ (hig : i < g.length) (hit : i < t.length)
      (hiH : i < H.length), e = ⟨t[i], g[i], H[i], false⟩ := by
    intro e he
    rw [List.mem_iff_getElem] at he
    obtain ⟨i, hi, hei⟩ := he
    have hig : i < g.length := by omega
    have hit : i < t.length := by omega
    have hiH : i < H.length := by omega
    exact ⟨i, hig, hit, hiH, by rw [← hei, mkEnts_get t g H i hi hit hig hiH]⟩
  have hyp1 : ∀ e ∈ mkEnts t g H, e.h = 'g' → e.w = e.g := by
    intro e he hh
    obtain ⟨i, hig, hit, hiH, hei⟩ := hmem0 e he
    subst hei
    exact ((hgr i hig hit hiH).mp hh).symm
  have hgp := greenPass_eq (mkEnts t g H) hyp1
  -- the state after the green pass
  set st1 : List Ent :=
    (mkEnts t g H).map (fun e => if e.h = 'g' then mark e else e) with hst1
  have hmem1 : ∀ e ∈ st1, ∃ i, ∃ (hig : i < g.length) (hit : i < t.length)
      (hiH : i < H.length),
      e = if H[i] = 'g' then Ent.mk t[i] g[i] H[i] true else Ent.mk t[i] g[i] H[i] false := by
    intro e he
    rw [hst1, List.mem_map] at he
    obtain ⟨x, hx, hex⟩ := he
    obtain ⟨i, hig, hit, hiH, hxi⟩ := hmem0 x hx
    subst hxi
    refine ⟨i, hig, hit, hiH, ?_⟩
    rw [← hex]
    by_cases hHg : H[i] = 'g' <;> simp [hHg, mark]
  have hgood1 : goodSt st1 := by
    intro e he hy
    obtain ⟨i, hig, hit, hiH, hei⟩ := hmem1 e he
    by_cases hHg : H[i] = 'g'
    · rw [hei, if_pos hHg] at hy
      have hy' : H[i] = 'y' := hy
      exact absurd (hHg.symm.trans hy') (by decide)
    · rw [hei, if_neg hHg] at hy ⊢
      have hne : g[i] ≠ t[i] := fun heq => hHg ((hgr i hig hit hiH).mpr heq)
      exact hne
  have hcnt1 : ∀ c : Char, c ≠ '.' → cntUnm c st1 = nonGreenCnt t g c := by
    intro c hc
    rw [hst1, cntUnm, List.countP_map, mkEnts, List.countP_map, nonGreenCnt]
    apply countP_congr_idx
    · rw [List.length_zip, List.length_zip, List.length_zip]; omega
    · intro i h1 h2
      have hit : i < t.length := by rw [List.length_zip, List.length_zip] at h1; omega
      have hig : i < g.length := by rw [List.length_zip, List.length_zip] at h1; omega
      have hiH : i < H.length := by rw [List.length_zip, List.length_zip] at h1; omega
      have hzz : i < (g.zip H).length := by rw [List.length_zip]; omega
      rw [List.getElem_zip, List.getElem_zip, List.getElem_zip]
      by_cases hHg : H[i] = 'g'
      · have heq : g[i] = t[i] := (hgr i hig hit hiH).mp hHg
        simp [Function.comp, hHg, mark, heq]
      · have hne : g[i] ≠ t[i] := fun heq => hHg ((hgr i hig hit hiH).mpr heq)
        simp [Function.comp, hHg, hne]
  have hpairs : ∀ p ∈ g.zip H, p.2 = 'y' → p.1 ≠ '.' := by
    intro p hp _
    exact hgd p.1 (List.of_mem_zip hp).1
  have havail1 : ∀ c : Char, c ≠ '.' → yCnt c (g.zip H) ≤ cntUnm c st1 := by
    intro c hc
    rw [hcnt1 c hc]
    exact havail c hc
  obtain ⟨st2, hyp2, hcnt2, _, _⟩ :=
    yellowPass_total (g.zip H) st1 hgood1 hpairs havail1
  have hgrey : greyPass (g.zip H) st2 = true := by
    rw [greyPass_iff]
    intro p hp hdot
    rw [List.mem_iff_getElem] at hp
    obtain ⟨j, hj, hpj⟩ := hp
    have hjg : j < g.length := by rw [List.length_zip] at hj; omega
    have hjH : j < H.length := by rw [List.length_zip] at hj; omega
    rw [List.getElem_zip] at hpj
    have hp1 : p.1 = g[j] := by rw [← hpj]
    have hp2 : p.2 = H[j] := by rw [← hpj]
    have hc : p.1 ≠ '.' := hgd p.1 (hp1 ▸ List.getElem_mem hjg)
    rw [greyOk_iff]
    have he := hexh p.1 hc j hjg hjH hp1.symm (by rw [← hp2, hdot])
    have hc2 := hcnt2 p.1 hc
    rw [hcnt1 p.1 hc] at hc2
    omega
  -- assemble the three passes
  have e1 : (Hint.mk g H).matchWord t = greyPass (g.zip H) st2 := by
    show (match greenPass (mkEnts t g H) with
      | none => false
      | some st1 =>
        match yellowPass (g.zip H) st1 with
        | none => false
        | some st2 => greyPass (g.zip H) st2) = greyPass (g.zip H) st2
    rw [hgp]
    show (match yellowPass (g.zip H) st1 with
      | none => false
      | some st2 => greyPass (g.zip H) st2) = greyPass (g.zip H) st2
    rw [hyp2]
  rw [e1]
  exact hgrey

/-- Self-consistency: the feedback derived for a guess against a target
always matches that target. -/
theorem fromGuess_matchWord_self (t g : Wd) (hlen : g.length = t.length)
    (hgd : ∀ x ∈ g, x ≠ '.') : (Hint.fromGuess t g).matchWord t = true :=
  matchWord_self_aux t g (Hint.fromGuess t g).hint hlen (fromGuess_hint_length t g hlen)
    (fun i hig hit hiH => fromGuess_green_iff t g hlen i hig hit hiH)
    hgd
    (fun c hc => fromGuess_avail t g hlen c hc)
    (fun c hc j hjg hjH hgj hHj => fromGuess_exhaust_at t g hlen c hc j hjg hgj hjH hHj)

/-! ### A wrong guess never matches its own derived feedback -/

theorem mkEnts_mem_shape (w g H : Wd) (e : Ent) (he : e ∈ mkEnts w g H) :
    ∃ i, ∃ (hiw : i < w.length) (hig : i < g.length) (hiH : i < H.length),
      e = ⟨w[i], g[i], H[i], false⟩ := by
  rw [List.mem_iff_getElem] at he
  obtain ⟨i, hi, hei⟩ := he
  have hl : (mkEnts w g H).length = min w.length (min g.length H.length) := mkEnts_length w g H
  have hiw : i < w.length := by omega
  have hig : i < g.length := by omega
  have hiH : i < H.length := by omega
  exact ⟨i, hiw, hig, hiH, by rw [← hei, mkEnts_get w g H i hi hiw hig hiH]⟩

theorem greenMap_mem_shape (w g H : Wd) (e : Ent)
    (he : e ∈ (mkEnts w g H).map (fun e => if e.h = 'g' then mark e else e)) :
    ∃ i, ∃ (hiw : i < w.length) (hig : i < g.length) (hiH : i < H.length),
      e = if H[i] = 'g' then Ent.mk w[i] g[i] H[i] true else Ent.mk w[i] g[i] H[i] false := by
  rw [List.mem_map] at he
  obtain ⟨x, hx, hex⟩ := he
  obtain ⟨i, hiw, hig, hiH, hxi⟩ := mkEnts_mem_shape w g H x hx
  subst hxi
  refine ⟨i, hiw, hig, hiH, ?_⟩
  rw [← hex]
  by_cases hHg : H[i] = 'g' <;> simp [hHg, mark]

/-- Core argument: if a candidate equal to the guess itself matches a
hint whose green positions are exactly the agreeing positions with the
target and whose symbols are green/yellow/grey, then the guess equals
the target. -/
theorem matchWord_guess_aux (t g H : Wd) (hlen : g.length = t.length)
    (hHl : H.length = g.length)
    (hgr : ∀ i (hig : i < g.length) (hit : i < t.length) (hiH : i < H.length),
      H[i] = 'g' ↔ g[i] = t[i])
    (hvals : ∀ i (hig : i < g.length) (hiH : i < H.length),
      H[i] = 'g' ∨ H[i] = 'y' ∨ H[i] = '.')
    (hm : (Hint.mk g H).matchWord g = true) : g = t := by
  by_contra hne
  -- a mismatching position exists
  have hmis : ∃ i, ∃ (hig : i < g.length) (hit : i < t.length), g[i] ≠ t[i] := by
    by_contra hall
    push_neg at hall
    exact hne (List.ext_getElem hlen (fun i h1 h2 => hall i h1 h2))
  obtain ⟨i0, hi0g, hi0t, hi0⟩ := hmis
  -- the green pass succeeds on the guess itself
  have hyp1 : ∀ e ∈ mkEnts g g H, e.h = 'g' → e.w = e.g := by
    intro e he _
    obtain ⟨i, hiw, hig, hiH, hei⟩ := mkEnts_mem_shape g g H e he
    subst hei
    rfl
  have hgp := greenPass_eq (mkEnts g g H) hyp1
  set st1 : List Ent :=
    (mkEnts g g H).map (fun e => if e.h = 'g' then mark e else e) with hst1
  -- extract the yellow and grey passes from the successful match
  have e1 : (Hint.mk g H).matchWord g =
      (match yellowPass (g.zip H) st1 with
        | none => false
        | some st2 => greyPass (g.zip H) st2) := by
    show (match greenPass (mkEnts g g H) with
      | none => false
      | some st1 =>
        match yellowPass (g.zip H) st1 with
        | none => false
        | some st2 => greyPass (g.zip H) st2) =
      (match yellowPass (g.zip H) st1 with
        | none => false
        | some st2 => greyPass (g.zip H) st2)
    rw [hgp]
  rw [e1] at hm
  cases hyp2 : yellowPass (g.zip H) st1 with
  | none => rw [hyp2] at hm; exact absurd hm (by simp)
  | some st2 =>
  rw [hyp2] at hm
  -- state properties
  have hwg1 : ∀ e ∈ st1, e.w = e.g := by
    intro e he
    obtain ⟨i, hiw, hig, hiH, hei⟩ := greenMap_mem_shape g g H e he
    by_cases hHg : H[i] = 'g' <;> rw [hei] <;> simp [hHg]
  have hgm1 : ∀ e ∈ st1, e.h = 'g' → e.m = true := by
    intro e he hh
    obtain ⟨i, hiw, hig, hiH, hei⟩ := greenMap_mem_shape g g H e he
    by_cases hHg : H[i] = 'g'
    · rw [hei, if_pos hHg]
    · rw [hei, if_neg hHg] at hh
      exact absurd hh hHg
  have hvals1 : ∀ e ∈ st1, e.h = 'g' ∨ e.h = 'y' ∨ e.h = '.' := by
    intro e he
    obtain ⟨i, hiw, hig, hiH, hei⟩ := greenMap_mem_shape g g H e he
    have hv := hvals i hig hiH
    by_cases hHg : H[i] = 'g'
    · rw [hei, if_pos hHg]
      exact Or.inl hHg
    · rw [hei, if_neg hHg]
      exact hv
  -- unmatched counts in the green-passed state, over the guess itself
  have hcnt1 : ∀ c : Char,
      cntUnm c st1 = (g.zip H).countP (fun p => p.1 = c && !(p.2 = 'g')) := by
    intro c
    rw [hst1, cntUnm, List.countP_map, mkEnts, List.countP_map]
    apply countP_congr_idx
    · simp only [List.length_zip]; omega
    · intro i h1 h2
      have hig : i < g.length := by simp only [List.length_zip] at h1; omega
      have hiH : i < H.length := by simp only [List.length_zip] at h1; omega
      simp only [List.getElem_zip]
      by_cases hHg : H[i] = 'g' <;> simp [Function.comp, hHg, mark]
  -- split the unmatched count into yellow and grey positions
  have hsplit : ∀ c : Char,
      (g.zip H).countP (fun p => p.1 = c && !(p.2 = 'g')) =
        yCnt c (g.zip H) + (g.zip H).countP (fun p => p.1 = c && p.2 = '.') := by
    intro c
    rw [yCnt, ← countP_or_disjoint _ _ (g.zip H) ?hdisj]
    case hdisj =>
      intro p _ hpq
      have h1 : p.2 = 'y' := by
        have := hpq.1
        simp only [Bool.and_eq_true, decide_eq_true_eq] at this
        exact this.2
      have h2 : p.2 = '.' := by
        have := hpq.2
        simp only [Bool.and_eq_true, decide_eq_true_eq] at this
        exact this.2
      exact absurd (h1.symm.trans h2) (by decide)
    apply countP_congr_idx _ _ _ _ rfl
    intro j h1 h2
    have hjg : j < g.length := by rw [List.length_zip] at h1; omega
    have hjH : j < H.length := by rw [List.length_zip] at h1; omega
    rw [List.getElem_zip]
    rcases hvals j hjg hjH with hv | hv | hv <;> simp [hv]
  by_cases hdot : ∃ j, ∃ (hjH : j < H.length), H[j] = '.'
  · -- a grey position exists: its letter stays unmatched, the grey pass fails
    obtain ⟨j, hjH, hHj⟩ := hdot
    have hjg : j < g.length := by omega
    have hjz : j < (g.zip H).length := by rw [List.length_zip]; omega
    have hpzin : (g.zip H)[j] ∈ g.zip H := List.getElem_mem hjz
    have hpz : (g.zip H)[j] = (g[j], H[j]) := List.getElem_zip
    have hgrey := (greyPass_iff (g.zip H) st2).mp hm (g.zip H)[j] hpzin (by rw [hpz]; exact hHj)
    rw [hpz] at hgrey
    have hok : cntUnm g[j] st2 = 0 := (greyOk_iff _ _).mp hgrey
    have hge := yellowPass_cnt_ge (g.zip H) st1 st2 hyp2 g[j]
    have hpos : 0 < (g.zip H).countP (fun p => p.1 = g[j] && p.2 = '.') := by
      rw [List.countP_pos_iff]
      exact ⟨(g[j], H[j]), hpz ▸ hpzin, by simp [hHj]⟩
    have h1 := hcnt1 g[j]
    have h2 := hsplit g[j]
    omega
  · -- no grey position: the mismatch position is yellow, yet every
    -- yellow request is served by a grey position
    push_neg at hdot
    have hH0 : H[i0] ≠ 'g' := fun h => hi0 ((hgr i0 hi0g hi0t (by omega)).mp h)
    have hHy : H[i0] = 'y' := by
      rcases hvals i0 hi0g (by omega) with hv | hv | hv
      · exact absurd hv hH0
      · exact hv
      · exact absurd hv (hdot i0 (by omega))
    have hi0z : i0 < (g.zip H).length := by rw [List.length_zip]; omega
    have hwit : ∃ p ∈ g.zip H, p.2 = 'y' :=
      ⟨(g.zip H)[i0], List.getElem_mem hi0z, by rw [List.getElem_zip]; exact hHy⟩
    obtain ⟨e, he, heh⟩ :=
      yellowPass_found_dot (g.zip H) st1 st2 hyp2 hwit hwg1 hgm1 hvals1
    obtain ⟨i, hiw, hig, hiH, hei⟩ := greenMap_mem_shape g g H e he
    by_cases hHg : H[i] = 'g'
    · rw [hei, if_pos hHg] at heh
      have : H[i] = '.' := heh
      exact absurd this (by rw [hHg]; decide)
    · rw [hei, if_neg hHg] at heh
      have : H[i] = '.' := heh
      exact absurd this (hdot i hiH)

/-- A guess different from the target never matches the feedback it
received: filtering by that feedback always drops the guess. -/
theorem matchWord_guess_self_imp (t g : Wd) (hlen : g.length = t.length)
    (hm : (Hint.fromGuess t g).matchWord g = true) : g = t :=
  matchWord_guess_aux t g (Hint.fromGuess t g).hint hlen (fromGuess_hint_length t g hlen)
    (fun i hig hit hiH => fromGuess_green_iff t g hlen i hig hit hiH)
    (fun i hig hiH => fromGuess_hint_vals t g hlen i hig (by omega) hiH)
    hm

/-! ### The selection fold of `getNextGuess` -/

/-- The `std::accumulate` selection fold keeps the accumulator unless a
strictly smaller score appears; its result is either the start value
(when nothing beats it) or the first element attaining the minimum. -/
theorem foldBest_spec (f : Wd → Nat) :
    ∀ (l : List Wd) (b : Wd × Nat),
      (l.foldl (fun best g => if f g < best.2 then (g, f g) else best) b = b ∧
        ∀ x ∈ l, b.2 ≤ f x) ∨
      (∃ pre x post, l = pre ++ x :: post ∧
        l.foldl (fun best g => if f g < best.2 then (g, f g) else best) b = (x, f x) ∧
        f x < b.2 ∧ (∀ p ∈ pre, f x < f p) ∧ (∀ q ∈ post, f x ≤ f q))
  | [], b => Or.inl ⟨rfl, by simp⟩
  | a :: l, b => by
    by_cases ha : f a < b.2
    · have hstep : (a :: l).foldl (fun best g => if f g < best.2 then (g, f g) else best) b =
          l.foldl (fun best g => if f g < best.2 then (g, f g) else best) (a, f a) := by
        simp [ha]
      rcases foldBest_spec f l (a, f a) with ⟨heq, hall⟩ |
        ⟨pre, x, post, hl, hfold, hlt, hpre, hpost⟩
      · refine Or.inr ⟨[], a, l, by simp, ?_, ha, by simp, ?_⟩
        · rw [hstep, heq]
        · exact hall
      · refine Or.inr ⟨a :: pre, x, post, by simp [hl], by rw [hstep]; exact hfold,
          lt_trans hlt ha, ?_, hpost⟩
        intro p hp
        rcases List.mem_cons.mp hp with hp | hp
        · rw [hp]; exact hlt
        · exact hpre p hp
    · have hstep : (a :: l).foldl (fun best g => if f g < best.2 then (g, f g) else best) b =
          l.foldl (fun best g => if f g < best.2 then (g, f g) else best) b := by
        simp [ha]
      rcases foldBest_spec f l b with ⟨heq, hall⟩ |
        ⟨pre, x, post, hl, hfold, hlt, hpre, hpost⟩
      · refine Or.inl ⟨by rw [hstep, heq], ?_⟩
        intro x hx
        rcases List.mem_cons.mp hx with hx | hx
        · rw [hx]; omega
        · exact hall x hx
      · refine Or.inr ⟨a :: pre, x, post, by simp [hl], by rw [hstep]; exact hfold, hlt, ?_,
          hpost⟩
        intro p hp
        rcases List.mem_cons.mp hp with hp | hp
        · rw [hp]; omega
        · exact hpre p hp

/-- `selectBest` returns the first guess attaining the minimal score,
provided the guess pool is non-empty and no score reaches the 64-bit
sentinel start value. -/
theorem selectBest_first_min (targets guessWords : List Wd) (hne : guessWords ≠ [])
    (hsc : ∀ g ∈ guessWords, score targets g < maxScoreSentinel) :
    ∃ pre g post, guessWords = pre ++ g :: post ∧ selectBest targets guessWords = g ∧
      (∀ p ∈ pre, score targets g < score targets p) ∧
      (∀ q ∈ guessWords, score targets g ≤ score targets q) := by
  rcases foldBest_spec (score targets) guessWords (nonWord, maxScoreSentinel) with
    ⟨heq, hall⟩ | ⟨pre, g, post, hl, hfold, _, hpre, hpost⟩
  · cases guessWords with
    | nil => exact absurd rfl hne
    | cons a l =>
      have h1 := hall a (List.mem_cons_self a l)
      have h2 := hsc a (List.mem_cons_self a l)
      omega
  · refine ⟨pre, g, post, hl, by rw [selectBest, hfold], hpre, ?_⟩
    intro q hq
    rw [hl] at hq
    rcases List.mem_append.mp hq with hq | hq
    · exact le_of_lt (hpre q hq)
    · rcases List.mem_cons.mp hq with hq | hq
      · rw [hq]
      · exact hpost q hq

/-! ### Valid words -/

theorem validWord_no_dot {w : Wd} (h : validWord w) : ∀ x ∈ w, x ≠ '.' := by
  intro x hx hdot
  have hlow := (h.2 x hx).1
  rw [hdot] at hlow
  exact absurd hlow (by decide)

theorem validWord_length {w : Wd} (h : validWord w) : w.length = 5 := h.1

/-! ### The score as a sum over feedback classes -/

/-- Modelled from the spec: the list of feedback patterns the guess `g`
would receive against each hypothetical target of the pool. -/
def feedbackList (targets : List Wd) (g : Wd) : List Hint :=
  targets.map (fun t => Hint.fromGuess t g)

/-- Modelled from the spec: the sum, over the distinct feedback patterns
partitioning the pool, of the squared class size. -/
def partitionSquaredSum (targets : List Wd) (g : Wd) : Nat :=
  ((feedbackList targets g).dedup.map (fun f => ((feedbackList targets g).count f) ^ 2)).sum

theorem partitionSquaredSum_eq (targets : List Wd) (g : Wd) :
    partitionSquaredSum targets g =
      (targets.map (fun t =>
        (feedbackList targets g).count (Hint.fromGuess t g))).sum := by
  have hmm : (targets.map (fun t => (feedbackList targets g).count (Hint.fromGuess t g))) =
      ((feedbackList targets g).map (fun f => (feedbackList targets g).count f)) := by
    rw [feedbackList, List.map_map]
    rfl
  have htf : (feedbackList targets g).dedup.toFinset = (feedbackList targets g).toFinset := by
    ext x
    simp [List.mem_toFinset, List.mem_dedup]
  rw [partitionSquaredSum, hmm]
  rw [Finset.sum_list_map_count, Finset.sum_list_map_count]
  rw [htf]
  apply Finset.sum_congr rfl
  intro x hx
  rw [List.mem_toFinset] at hx
  rw [List.count_dedup, if_pos hx]
  simp [pow_two]

/-- The score dominates the sum of squared feedback-class sizes: every
candidate matches at least the feedback of the targets of its own class
(by self-consistency), and possibly more. -/
theorem score_ge_partitionSquaredSum (targets : List Wd) (g : Wd)
    (hval : ∀ w ∈ targets, validWord w) (hvg : validWord g) :
    partitionSquaredSum targets g ≤ score targets g := by
  rw [partitionSquaredSum_eq, score]
  apply List.sum_le_sum
  intro t ht
  rw [List.count_eq_countP, feedbackList, List.countP_map]
  apply List.countP_mono_left
  intro c hc hbeq
  have heq : Hint.fromGuess c g = Hint.fromGuess t g := by
    simp only [Function.comp_apply] at hbeq
    exact eq_of_beq hbeq
  have hm := fromGuess_matchWord_self c g
    (by rw [validWord_length hvg, validWord_length (hval c hc)]) (validWord_no_dot hvg)
  rw [heq] at hm
  exact hm

/-! ### The solver loop -/

theorem solveLoop_ok_bound (hard : Bool) (fg : Option Wd) (target : Wd) :
    ∀ (fuel : Nat) (ts gs : List Wd) (i : Nat) (w : Wd) (n : Nat),
      solveLoop hard fg target ts gs i fuel = .ok (w, n) → n ≤ i + fuel := by
  intro fuel
  induction fuel with
  | zero => intro ts gs i w n h; simp [solveLoop] at h
  | succ fuel ih =>
    intro ts gs i w n h
    rw [solveLoop] at h
    cases hE : chooseGuess fg ts gs i with
    | error e => rw [hE] at h; simp at h
    | ok guess =>
      rw [hE] at h
      simp only [] at h
      by_cases hgt : guess = target
      · rw [if_pos hgt] at h
        simp only [Except.ok.injEq, Prod.mk.injEq] at h
        omega
      · rw [if_neg hgt] at h
        by_cases hemp : nextTargets target guess ts = []
        · rw [if_pos hemp] at h
          simp at h
        · rw [if_neg hemp] at h
          have := ih (nextTargets target guess ts)
            (if hard then filterTargets [Hint.fromGuess target guess] gs else gs)
            (i + 1) w n h
          omega

/-! ### The wording of the spec for the yellow-pass condition -/

/-- The per-position yellow-pass condition as worded by the spec
(§4.2, Yellow pass): the guessed letter occurs at this candidate
position, the position is (b) not the same position with the same
letter re-marked yellow at itself, and (a) not already accounted-for. -/
def specYellowOk (c : Char) (e : Ent) : Prop :=
  e.w = c ∧ ¬(e.h = 'y' ∧ e.g = c) ∧ e.m = false

theorem specYellowOk_iff (c : Char) (e : Ent) : specYellowOk c e ↔ yOk c e = true := by
  cases h4 : e.m <;> by_cases h1 : e.w = c <;> by_cases h2 : e.h = 'y' <;>
    by_cases h3 : e.g = c <;> simp [specYellowOk, yOk, h1, h2, h3, h4]

/-! ### Claim theorems -/

/-- C1: for every pair of valid 5-letter lowercase words
(target, guess), the feedback derived by `Hint::fromGuess(target,
guess)` is consistent with the target itself:
`fromGuess(target, guess).match(target)` returns true. -/
theorem c1_self_consistency (target guess : Wd)
    (hvt : validWord target) (hvg : validWord guess) :
    (Hint.fromGuess target guess).matchWord target = true :=
  fromGuess_matchWord_self target guess
    (by rw [validWord_length hvg, validWord_length hvt]) (validWord_no_dot hvg)

theorem c1_self_consistency_witness :
    (Hint.fromGuess ['g','e','e','s','e'] ['e','r','a','s','e']).matchWord
      ['g','e','e','s','e'] = true :=
  c1_self_consistency ['g','e','e','s','e'] ['e','r','a','s','e'] (by decide) (by decide)

/-- C2: in `Hint::match`, a yellow position is satisfiable exactly when
the guessed letter occurs in the candidate at some position that is not
already accounted-for and not the same position with the same letter
marked yellow at itself; candidate positions are searched
left-to-right, the first such occurrence becomes accounted-for, and if
no such occurrence exists the match returns false. -/
theorem c2_yellow_pass_spec :
    (∀ (c : Char) (st : List Ent),
      (yfind c st = none ↔ ∀ e ∈ st, ¬specYellowOk c e)) ∧
    (∀ (c : Char) (st st' : List Ent), yfind c st = some st' →
      ∃ a e b, st = a ++ e :: b ∧ specYellowOk c e ∧ (∀ x ∈ a, ¬specYellowOk c x) ∧
        st' = a ++ mark e :: b) ∧
    (∀ (ht : Hint) (word : Wd) (st1 : List Ent),
      greenPass (mkEnts word ht.guess ht.hint) = some st1 →
      yellowPass (ht.guess.zip ht.hint) st1 = none →
      ht.matchWord word = false) := by
  refine ⟨?_, ?_, ?_⟩
  · intro c st
    constructor
    · intro h e he hok
      have hf := yfind_none st h e he
      exact absurd ((specYellowOk_iff c e).mp hok) (by rw [hf]; simp)
    · intro hall
      cases hf : yfind c st with
      | none => rfl
      | some st' =>
        obtain ⟨a, e, b, h1, h2, _, _⟩ := yfind_some_decomp st st' hf
        have hmem : e ∈ st := h1 ▸ List.mem_append_right a (List.mem_cons_self e b)
        exact absurd ((specYellowOk_iff c e).mpr h2) (hall e hmem)
  · intro c st st' hf
    obtain ⟨a, e, b, h1, h2, h3, h4⟩ := yfind_some_decomp st st' hf
    refine ⟨a, e, b, h1, (specYellowOk_iff c e).mpr h2, ?_, h4⟩
    intro x hx hox
    have hfx := h3 x hx
    exact absurd ((specYellowOk_iff c x).mp hox) (by rw [hfx]; simp)
  · intro ht word st1 hgp hyp
    show (match greenPass (mkEnts word ht.guess ht.hint) with
      | none => false
      | some st1 =>
        match yellowPass (ht.guess.zip ht.hint) st1 with
        | none => false
        | some st2 => greyPass (ht.guess.zip ht.hint) st2) = false
    rw [hgp]
    show (match yellowPass (ht.guess.zip ht.hint) st1 with
      | none => false
      | some st2 => greyPass (ht.guess.zip ht.hint) st2) = false
    rw [hyp]

theorem c2_yellow_pass_spec_witness : yfind 'a' ([] : List Ent) = none :=
  (c2_yellow_pass_spec.1 'a' []).mpr (fun e he => absurd he (List.not_mem_nil e))

/-- C3 counterexample: a guess word CAN be guessed twice in one solve.
With candidate pool [crane, brick, fight], allowed-guess pool [zzzzz],
target crane and no caller-supplied first guess, `chooseGuess` selects
zzzzz on round 0, the derived all-grey feedback filters nothing (the
pool update leaves the pool unchanged), `chooseGuess` selects zzzzz
again on round 1, and `solveWord` re-guesses it every round until the
budget is exhausted: the guess pool is never pruned in normal mode, so
exclusion from the candidate pool does not prevent repetition. -/
theorem c3_counterexample :
    chooseGuess none
        [['c','r','a','n','e'], ['b','r','i','c','k'], ['f','i','g','h','t']]
        [['z','z','z','z','z']] 0 = .ok ['z','z','z','z','z'] ∧
    ['z','z','z','z','z'] ≠ ['c','r','a','n','e'] ∧
    nextTargets ['c','r','a','n','e'] ['z','z','z','z','z']
        [['c','r','a','n','e'], ['b','r','i','c','k'], ['f','i','g','h','t']] =
      [['c','r','a','n','e'], ['b','r','i','c','k'], ['f','i','g','h','t']] ∧
    chooseGuess none
        [['c','r','a','n','e'], ['b','r','i','c','k'], ['f','i','g','h','t']]
        [['z','z','z','z','z']] 1 = .ok ['z','z','z','z','z'] ∧
    solveWord false none ['c','r','a','n','e']
        [['c','r','a','n','e'], ['b','r','i','c','k'], ['f','i','g','h','t']]
        [['z','z','z','z','z']] = .error .budgetExhausted :=
  ⟨rfl, by decide, by decide, rfl, rfl⟩

/-- C3 (amended): after an unsuccessful guess, the filtered candidate
pool never contains the guess itself: the feedback a wrong guess
receives excludes it (`solveWord` updates the pool with exactly this
filter).  This does not prevent the solver from guessing the same word
again: the allowed-guess pool is not pruned in normal mode. -/
theorem c3_guess_excluded (target guess : Wd) (pool : List Wd)
    (hvt : validWord target) (hvg : validWord guess) (hne : guess ≠ target) :
    guess ∉ nextTargets target guess pool := by
  intro hmem
  rw [nextTargets, filterTargets, List.mem_filter] at hmem
  have hall := hmem.2
  rw [List.all_eq_true] at hall
  have hm := hall (Hint.fromGuess target guess)
    (List.mem_cons_self (Hint.fromGuess target guess) [])
  exact hne (matchWord_guess_self_imp target guess
    (by rw [validWord_length hvg, validWord_length hvt]) hm)

theorem c3_guess_excluded_witness :
    ['r','a','i','s','e'] ∉ nextTargets ['c','r','a','n','e'] ['r','a','i','s','e']
      [['c','r','a','n','e'], ['r','a','i','s','e']] :=
  c3_guess_excluded ['c','r','a','n','e'] ['r','a','i','s','e']
    [['c','r','a','n','e'], ['r','a','i','s','e']] (by decide) (by decide) (by decide)

/-- C4 counterexample: with an empty allowed-guess pool (and a
candidate pool of more than 2 words), `getNextGuess` returns the
`nonWord` sentinel, which is not an element of the allowed-guess pool,
so it does not return "the allowed-guess word with the strictly lowest
score". -/
theorem c4_counterexample :
    getNextGuess [['a','a','a','a','a'], ['b','b','b','b','b'], ['c','c','c','c','c']]
        ([] : List Wd) = .ok nonWord ∧
      nonWord ∉ ([] : List Wd) :=
  ⟨rfl, fun h => absurd h (List.not_mem_nil nonWord)⟩

/-- C4 (amended): for every candidate pool with more than 2 elements
and every NON-EMPTY allowed-guess pool whose scores stay below the
64-bit sentinel, `getNextGuess` returns the first allowed-guess word
attaining the minimal score (earlier words have strictly greater
scores); being a pure function, repeated calls return the same word. -/
theorem c4_first_minimal (targets guessWords : List Wd) (hbig : 2 < targets.length)
    (hne : guessWords ≠ [])
    (hsc : ∀ g ∈ guessWords, score targets g < maxScoreSentinel) :
    ∃ pre g post, guessWords = pre ++ g :: post ∧
      getNextGuess targets guessWords = .ok g ∧
      (∀ p ∈ pre, score targets g < score targets p) ∧
      (∀ q ∈ guessWords, score targets g ≤ score targets q) := by
  cases targets with
  | nil => simp at hbig
  | cons t ts =>
    have hgt : ¬((t :: ts).length ≤ 2) := by
      simp only [List.length_cons] at hbig ⊢
      omega
    obtain ⟨pre, g, post, hl, hsel, hpre, hall⟩ :=
      selectBest_first_min (t :: ts) guessWords hne hsc
    exact ⟨pre, g, post, hl, by rw [getNextGuess, if_neg hgt, hsel], hpre, hall⟩

theorem c4_first_minimal_witness :
    ∃ pre g post,
      [['a','b','a','b','a'], ['b','a','b','a','b']] = pre ++ g :: post ∧
      getNextGuess [['a','a','a','a','a'], ['a','a','a','a','b'], ['a','a','a','b','a']]
        [['a','b','a','b','a'], ['b','a','b','a','b']] = .ok g ∧
      (∀ p ∈ pre, score [['a','a','a','a','a'], ['a','a','a','a','b'], ['a','a','a','b','a']] g <
        score [['a','a','a','a','a'], ['a','a','a','a','b'], ['a','a','a','b','a']] p) ∧
      (∀ q ∈ [['a','b','a','b','a'], ['b','a','b','a','b']],
        score [['a','a','a','a','a'], ['a','a','a','a','b'], ['a','a','a','b','a']] g ≤
        score [['a','a','a','a','a'], ['a','a','a','a','b'], ['a','a','a','b','a']] q) :=
  c4_first_minimal
    [['a','a','a','a','a'], ['a','a','a','a','b'], ['a','a','a','b','a']]
    [['a','b','a','b','a'], ['b','a','b','a','b']]
    (by decide) (by decide) (by decide)

/-- C5: a candidate pool of size 1 or 2 makes `getNextGuess` return the
first candidate directly, with the allowed-guess pool never consulted
(the result does not depend on it). -/
theorem c5_small_pool_shortcut (t : Wd) (ts : List Wd) (gw gw' : List Wd)
    (h : (t :: ts).length = 1 ∨ (t :: ts).length = 2) :
    getNextGuess (t :: ts) gw = .ok t ∧
      getNextGuess (t :: ts) gw = getNextGuess (t :: ts) gw' := by
  have hle : (t :: ts).length ≤ 2 := by rcases h with h | h <;> omega
  rw [getNextGuess, if_pos hle, getNextGuess, if_pos hle]
  exact ⟨rfl, rfl⟩

theorem c5_small_pool_shortcut_witness :
    getNextGuess [['a','a','a','a','a'], ['b','b','b','b','b']] [['c','c','c','c','c']] =
        .ok ['a','a','a','a','a'] ∧
      getNextGuess [['a','a','a','a','a'], ['b','b','b','b','b']] [['c','c','c','c','c']] =
        getNextGuess [['a','a','a','a','a'], ['b','b','b','b','b']] ([] : List Wd) :=
  c5_small_pool_shortcut ['a','a','a','a','a'] [['b','b','b','b','b']]
    [['c','c','c','c','c']] [] (Or.inr (by decide))

/-- C6: `getNextGuess` fails with `EmptyCandidatePool` exactly when the
candidate pool is empty, and returns a word without raising on every
non-empty pool. -/
theorem c6_empty_pool_error_iff (targets guessWords : List Wd) :
    (getNextGuess targets guessWords = .error .emptyCandidatePool ↔ targets = []) ∧
    (targets ≠ [] → ∃ w, getNextGuess targets guessWords = .ok w) := by
  cases targets with
  | nil => exact ⟨by simp [getNextGuess], fun h => absurd rfl h⟩
  | cons t ts =>
    constructor
    · constructor
      · intro h
        by_cases hle : (t :: ts).length ≤ 2
        · rw [getNextGuess, if_pos hle] at h
          exact absurd h (by simp)
        · rw [getNextGuess, if_neg hle] at h
          exact absurd h (by simp)
      · intro h
        exact absurd h (by simp)
    · intro _
      by_cases hle : (t :: ts).length ≤ 2
      · exact ⟨t, by rw [getNextGuess, if_pos hle]⟩
      · exact ⟨selectBest (t :: ts) guessWords, by rw [getNextGuess, if_neg hle]⟩

theorem c6_empty_pool_error_iff_witness :
    getNextGuess ([] : List Wd) [['a','a','a','a','a']] = .error .emptyCandidatePool ∧
      ∃ w, getNextGuess [['b','b','b','b','b']] [['a','a','a','a','a']] = .ok w :=
  ⟨(c6_empty_pool_error_iff [] [['a','a','a','a','a']]).1.mpr rfl,
    (c6_empty_pool_error_iff [['b','b','b','b','b']] [['a','a','a','a','a']]).2
      (by simp)⟩

/-- C7: `filterTargets` returns exactly the stable subsequence of the
pool whose words match every hint: the result is a sublist (order
preserved, input untouched), membership is equivalent to matching every
hint, and the size never grows. -/
theorem c7_filter_spec (hints : List Hint) (pool : List Wd) (hne : hints ≠ []) :
    (filterTargets hints pool).Sublist pool ∧
    (∀ w, w ∈ filterTargets hints pool ↔
      w ∈ pool ∧ ∀ ht ∈ hints, ht.matchWord w = true) ∧
    (filterTargets hints pool).length ≤ pool.length := by
  refine ⟨List.filter_sublist pool, ?_, List.length_filter_le _ pool⟩
  intro w
  rw [filterTargets, List.mem_filter, List.all_eq_true]

theorem c7_filter_spec_witness :
    (filterTargets [Hint.mk ['a','a','a','a','a'] ['g','g','g','g','g']]
        [['a','a','a','a','a'], ['b','b','b','b','b']]).Sublist
      [['a','a','a','a','a'], ['b','b','b','b','b']] ∧
    (∀ w, w ∈ filterTargets [Hint.mk ['a','a','a','a','a'] ['g','g','g','g','g']]
        [['a','a','a','a','a'], ['b','b','b','b','b']] ↔
      w ∈ [['a','a','a','a','a'], ['b','b','b','b','b']] ∧
        ∀ ht ∈ [Hint.mk ['a','a','a','a','a'] ['g','g','g','g','g']],
          ht.matchWord w = true) ∧
    (filterTargets [Hint.mk ['a','a','a','a','a'] ['g','g','g','g','g']]
        [['a','a','a','a','a'], ['b','b','b','b','b']]).length ≤
      (([['a','a','a','a','a'], ['b','b','b','b','b']] : List Wd)).length :=
  c7_filter_spec [Hint.mk ['a','a','a','a','a'] ['g','g','g','g','g']]
    [['a','a','a','a','a'], ['b','b','b','b','b']] (by simp)

/-- C8 counterexample: the score is NOT always the sum of squared
feedback-class sizes.  With the valid pool [aaaab, aaaba] and guess
aabba, the two targets induce two distinct feedback classes of size 1
(squared sum 2), but the score is 3, because candidate aaaba also
matches the feedback `ggy.y` of target aaaab while producing the
different feedback `gg.gg` itself. -/
theorem c8_counterexample :
    score [['a','a','a','a','b'], ['a','a','a','b','a']] ['a','a','b','b','a'] ≠
      partitionSquaredSum [['a','a','a','a','b'], ['a','a','a','b','a']]
        ['a','a','b','b','a'] ∧
    score [['a','a','a','a','b'], ['a','a','a','b','a']] ['a','a','b','b','a'] = 3 ∧
    partitionSquaredSum [['a','a','a','a','b'], ['a','a','a','b','a']]
        ['a','a','b','b','a'] = 2 ∧
    validWord ['a','a','a','a','b'] ∧ validWord ['a','a','a','b','a'] ∧
    validWord ['a','a','b','b','a'] := by
  refine ⟨?_, by decide, by decide, by decide, by decide, by decide⟩
  decide

/-- C8 (amended): the score of a guess is the sum, over hypothetical
targets in the pool, of the number of candidates matching the derived
feedback — by the definition `getNextGuess` computes — and this sum is
at least (not in general equal to) the sum over the feedback classes of
the squared class size, because every candidate matches at least the
feedback of the targets of its own class. -/
theorem c8_score_ge_partition (targets : List Wd) (g : Wd)
    (hval : ∀ w ∈ targets, validWord w) (hvg : validWord g) :
    partitionSquaredSum targets g ≤ score targets g :=
  score_ge_partitionSquaredSum targets g hval hvg

theorem c8_score_ge_partition_witness :
    partitionSquaredSum [['a','a','a','a','b'], ['a','a','a','b','a']]
        ['a','a','b','b','a'] ≤
      score [['a','a','a','a','b'], ['a','a','a','b','a']] ['a','a','b','b','a'] :=
  c8_score_ge_partition [['a','a','a','a','b'], ['a','a','a','b','a']]
    ['a','a','b','b','a'] (by decide) (by decide)

/-- C9: `solveWord` always terminates with one of three outcomes: a
solution within the guess budget (`maxGuessesT`, 6 in normal mode), the
budget-exhausted error, or the empty-candidate-pool error. -/
theorem c9_solveWord_terminates (hard : Bool) (fg : Option Wd) (target : Wd)
    (ts gs : List Wd) :
    (∃ w n, solveWord hard fg target ts gs = .ok (w, n) ∧ n ≤ maxGuessesT hard) ∨
    solveWord hard fg target ts gs = .error .budgetExhausted ∨
    solveWord hard fg target ts gs = .error .emptyCandidatePool := by
  cases h : solveWord hard fg target ts gs with
  | ok p =>
    obtain ⟨w, n⟩ := p
    left
    refine ⟨w, n, rfl, ?_⟩
    rw [solveWord] at h
    have := solveLoop_ok_bound hard fg target (maxGuessesT hard) ts gs 0 w n h
    omega
  | error e =>
    cases e with
    | emptyCandidatePool => exact Or.inr (Or.inr rfl)
    | budgetExhausted => exact Or.inr (Or.inl rfl)

/-- C10 (code bug): `getRandomTarget` draws its index from
`uniform_int_distribution(1, size(allTargets))`, whose inclusive upper
bound equals the array size: the drawn value `size` is possible yet out
of bounds (and index 0 is never drawn), so the claimed bound
`0 ≤ index < size` fails. -/
theorem c10_random_index_bug (n : Nat) (hn : 0 < n) :
    randIndexPossible n n ∧ ¬ randIndexInBounds n n :=
  ⟨⟨hn, le_refl n⟩, fun h => lt_irrefl n h⟩

theorem c10_random_index_bug_witness :
    randIndexPossible 5 5 ∧ ¬ randIndexInBounds 5 5 :=
  c10_random_index_bug 5 (by decide)

/-- Concrete duplicate-letter check of the embedding: guessing erase
against target geese yields hint `y..gg`, as the source derivation
produces. -/
theorem sanity_fromGuess_geese_erase :
    (Hint.fromGuess ['g','e','e','s','e'] ['e','r','a','s','e']).hint
      = ['y', '.', '.', 'g', 'g'] := by decide

/-- Concrete check: the candidate aaaba matches the feedback `ggy.y`
that target aaaab gives to guess aabba, although its own feedback for
that guess is the different pattern `gg.gg`. -/
theorem sanity_match_coarser_than_feedback :
    (Hint.fromGuess ['a','a','a','a','b'] ['a','a','b','b','a']).matchWord
      ['a','a','a','b','a'] = true ∧
    (Hint.fromGuess ['a','a','a','a','b'] ['a','a','b','b','a']).hint
      = ['g', 'g', 'y', '.', 'y'] ∧
    (Hint.fromGuess ['a','a','a','b','a'] ['a','a','b','b','a']).hint
      = ['g', 'g', '.', 'g', 'g'] := by decide

end Wordler
